import Mathlib

/-!
Verification of `pylib/tools/genhooks.py` (hook-code generator).

The generator reads a static list of `Hook` declarations, derives a
registration-list declaration and a dispatch ("fire") function for each,
concatenates them (sorted by name) and splices the blob into a target file
between two `# @@AUTOGEN@@` sentinel lines via
`re.sub("(?s)# @@AUTOGEN@@.*?# @@AUTOGEN@@\n", ...)`.

Python strings are modelled as `List Char` (`Chars`): the built-in Lean
`String.splitOn`/`String.trim` are defined by well-founded recursion and do
not reduce inside the kernel, so the Python `str.split`, `str.strip` and
`str.join` operations are re-implemented here by structural recursion with
the exact Python semantics for the cases exercised (`"".split(",") == [""]`,
separators kept as empty segments, ASCII whitespace stripping).

The dynamic behaviour of the *generated* dispatch functions (the templates
emitted by `Hook.hook_fire_code` / `Hook.filter_fire_code`) is embedded as
the operational models `fireHook` / `fireFilter` below, with callbacks as
Lean functions returning `Except` and the Python `list.remove` modelled by
`List.erase` (both remove the first occurrence equal to the argument).
-/

namespace GenHooks

abbrev Chars := List Char

/-- Python `str.split(sep)` for a one-character separator: empty string gives
`[""]`, empty segments are kept (`"a,".split(",") == ["a",""]`). -/
def splitOnChar (sep : Char) : Chars → List Chars
  | [] => [[]]
  | c :: cs =>
    let r := splitOnChar sep cs
    if c = sep then [] :: r
    else
      match r with
      | [] => [[c]]
      | seg :: rest => (c :: seg) :: rest

/-- ASCII/Latin-1 whitespace recognised by Python `str.strip()` (the hook
declarations only ever contain plain spaces). -/
def pyIsSpace (c : Char) : Bool :=
  c = ' ' || c = '\t' || c = '\n' || c = '\r' || c = '\x0b' || c = '\x0c'

/-- Python `str.strip()`: drop whitespace from both ends. -/
def pyStrip (l : Chars) : Chars :=
  ((l.dropWhile pyIsSpace).reverse.dropWhile pyIsSpace).reverse

/-- Python `sep.join(xs)`. -/
def joinSep (sep : Chars) : List Chars → Chars
  | [] => []
  | [x] => x
  | x :: y :: xs => x ++ sep ++ joinSep sep (y :: xs)

/-- Generation-time failures of the generator itself.
`malformedSignature` models the Python `ValueError` raised by the tuple
unpacking `(name, type) = arg.split(":")` when the split does not yield
exactly two parts; `indexError` models the Python `IndexError` raised by
`arg_names[0]` in `filter_fire_code` when the argument list is empty. -/
inductive GenError where
  | malformedSignature
  | indexError
deriving DecidableEq

/-- The `Hook` dataclass of `genhooks.py` (fields keep the source names). -/
structure Hook where
  name : String
  cb_args : String
  return_type : Option String
  legacy_hook : Option String
deriving DecidableEq

/-- The common loop of `Hook.callable` / `Hook.arg_names`: walk the
comma-separated segments of `cb_args`, skip empty segments (`if not arg:
continue`), split each remaining segment at `":"` and unpack into exactly
(name, type) — anything else raises `ValueError` —, then keep `proj name
type` (stripped name or stripped type). -/
def parseLoop (proj : Chars → Chars → Chars) : List Chars → Except GenError (List Chars)
  | [] => Except.ok []
  | arg :: rest =>
    if arg = [] then parseLoop proj rest
    else
      match splitOnChar ':' arg with
      | [n, t] =>
        match parseLoop proj rest with
        | Except.ok xs => Except.ok (proj n t :: xs)
        | Except.error e => Except.error e
      | _ => Except.error GenError.malformedSignature

/-- The list `types` built inside `Hook.callable` (stripped type texts, in
declaration order). -/
def Hook.argTypes (h : Hook) : Except GenError (List Chars) :=
  parseLoop (fun _ t => pyStrip t) (splitOnChar ',' h.cb_args.data)

/-- `Hook.arg_names` from the source: stripped argument names, in order. -/
def Hook.arg_names (h : Hook) : Except GenError (List Chars) :=
  parseLoop (fun n _ => pyStrip n) (splitOnChar ',' h.cb_args.data)

/-- Python `self.return_type or 'None'`: the `or` falls through to `'None'`
both when `return_type` is `None` and when it is the empty string (falsy). -/
def pyOrNone : Option String → Chars
  | none => "None".data
  | some s => if s = "" then "None".data else s.data

/-- `Hook.callable` from the source:
`f"Callable[[{types_str}], {self.return_type or 'None'}]"`. -/
def Hook.callable (h : Hook) : Except GenError Chars :=
  match h.argTypes with
  | Except.error e => Except.error e
  | Except.ok ts =>
    Except.ok ("Callable[[".data ++ joinSep ", ".data ts ++ "], ".data
      ++ pyOrNone h.return_type ++ "]".data)

/-- `Hook.kind`: `"filter"` iff `return_type is not None`. -/
def Hook.kind (h : Hook) : Chars :=
  match h.return_type with
  | some _ => "filter".data
  | none => "hook".data

/-- `Hook.full_name`: `f"{self.name}_{self.kind()}"`. -/
def Hook.full_name (h : Hook) : Chars :=
  h.name.data ++ "_".data ++ h.kind

/-- `Hook.list_code`: `f"{self.full_name()}: List[{self.callable()}] = []\n"`. -/
def Hook.list_code (h : Hook) : Except GenError Chars :=
  match h.callable with
  | Except.error e => Except.error e
  | Except.ok c =>
    Except.ok (h.full_name ++ ": List[".data ++ c ++ "] = []\n".data)

/-- `f"{self.return_type}"` as used in `filter_fire_code`'s signature
(Python prints `None` for a missing value; that branch is only reached for
filters, where `return_type` is present). -/
def pyStr : Option String → Chars
  | none => "None".data
  | some s => s.data

/-- `Hook.hook_fire_code`: the text of the generated hook-variant dispatch
function, transcribed line by line from the Python template string; the
legacy block is appended under `if self.legacy_hook:`, a truthiness test
that also skips an empty alias string. -/
def Hook.hook_fire_code (h : Hook) : Except GenError Chars :=
  match h.arg_names with
  | Except.error e => Except.error e
  | Except.ok ns =>
    let fn := h.full_name
    let base :=
      "def run_".data ++ fn ++ "(".data ++ h.cb_args.data ++ ") -> None:\n".data
      ++ "    for hook in ".data ++ fn ++ ":\n".data
      ++ "        try:\n".data
      ++ "            hook(".data ++ joinSep ", ".data ns ++ ")\n".data
      ++ "        except:\n".data
      ++ "            # if the hook fails, remove it\n".data
      ++ "            ".data ++ fn ++ ".remove(hook)\n".data
      ++ "            raise\n".data
    let withLegacy :=
      match h.legacy_hook with
      | none => base
      | some leg =>
        if leg = "" then base
        else
          base ++ "    # legacy support\n".data
            ++ "    runHook(".data
            ++ joinSep ", ".data (("\"".data ++ leg.data ++ "\"".data) :: ns)
            ++ ")\n".data
    Except.ok (withLegacy ++ "\n\n".data)

/-- `Hook.filter_fire_code`: the text of the generated filter-variant
dispatch function; `arg_names[0]` raises `IndexError` when the parsed
argument list is empty, and the legacy block is appended under the same
truthiness test as in the hook variant. -/
def Hook.filter_fire_code (h : Hook) : Except GenError Chars :=
  match h.arg_names with
  | Except.error e => Except.error e
  | Except.ok [] => Except.error GenError.indexError
  | Except.ok (n0 :: ns) =>
    let fn := h.full_name
    let base :=
      "def run_".data ++ fn ++ "(".data ++ h.cb_args.data ++ ") -> ".data
      ++ pyStr h.return_type ++ ":\n".data
      ++ "    for filter in ".data ++ fn ++ ":\n".data
      ++ "        try:\n".data
      ++ "            ".data ++ n0 ++ " = filter(".data
      ++ joinSep ", ".data (n0 :: ns) ++ ")\n".data
      ++ "        except:\n".data
      ++ "            # if the hook fails, remove it\n".data
      ++ "            ".data ++ fn ++ ".remove(filter)\n".data
      ++ "            raise\n".data
    let withLegacy :=
      match h.legacy_hook with
      | none => base
      | some leg =>
        if leg = "" then base
        else
          base ++ "    # legacy support\n".data
            ++ "    runFilter(".data
            ++ joinSep ", ".data (("\"".data ++ leg.data ++ "\"".data) :: (n0 :: ns))
            ++ ")\n".data
    Except.ok (withLegacy ++ "    return ".data ++ n0 ++ "\n".data ++ "\n\n".data)

/-- `Hook.fire_code`: filter variant when `return_type` is set, else hook. -/
def Hook.fire_code (h : Hook) : Except GenError Chars :=
  match h.return_type with
  | some _ => h.filter_fire_code
  | none => h.hook_fire_code

/-- Lexicographic (code-point) comparison of Python strings, as used by
`hooks.sort(key=attrgetter("name"))`. -/
def charsLt : Chars → Chars → Bool
  | [], [] => false
  | [], _ :: _ => true
  | _ :: _, [] => false
  | a :: as, b :: bs => if a < b then true else if b < a then false else charsLt as bs

/-- Insert a hook into an already sorted accumulator, after any hook whose
name is ≤ its own (so the overall sort is stable, like Python's). -/
def insertHook (h : Hook) : List Hook → List Hook
  | [] => [h]
  | x :: xs => if charsLt h.name.data x.name.data then h :: x :: xs else x :: insertHook h xs

/-- `hooks.sort(key=attrgetter("name"))`: stable ascending sort by name.
A stable sort is uniquely determined by its specification, so this
insertion sort computes exactly what Python's Timsort computes. -/
def sortHooks (l : List Hook) : List Hook :=
  l.foldl (fun acc h => insertHook h acc) []

/-- The code-assembly driver of `genhooks.py`: sort, concatenate all
`list_code` fragments, a `"\n\n"` separator, then all `fire_code`
fragments.  Any generation error aborts the run (Python exception). -/
def genCode (hooks : List Hook) : Except GenError Chars :=
  let sorted := sortHooks hooks
  match sorted.foldlM (fun acc h =>
      match h.list_code with
      | Except.ok c => Except.ok (acc ++ c)
      | Except.error e => (Except.error e : Except GenError Chars)) [] with
  | Except.error e => Except.error e
  | Except.ok listPart =>
    match sorted.foldlM (fun acc h =>
        match h.fire_code with
        | Except.ok c => Except.ok (acc ++ c)
        | Except.error e => (Except.error e : Except GenError Chars)) [] with
    | Except.error e => Except.error e
    | Except.ok firePart => Except.ok (listPart ++ "\n\n".data ++ firePart)

/-- The hook list hard-coded at the bottom of `genhooks.py`. -/
def ankiHooks : List Hook :=
  [ Hook.mk "leech" "card: Card" none (some "leech"),
    Hook.mk "odue_invalid" "" none none,
    Hook.mk "mod_schema" "proceed: bool" (some "bool") none ]

/-! ### Operational model of the generated dispatch functions

The templates emitted by `hook_fire_code` / `filter_fire_code` have a fixed
shape; their runtime behaviour is embedded here.  A callback is an abstract
value `c : Cb` whose invocation on the (fixed) arguments is the function
`call c : Except E _` — `Except.error` models a raised Python exception.
`DecidableEq Cb` models Python object identity, which is what `==` (and
hence `list.remove`) uses for function objects.  `List.erase` removes the
first occurrence, exactly like Python's `list.remove`.  The loop mutates
the registration list only in the failing iteration and immediately
re-raises, so iterating the original list is observationally faithful. -/

/-- Result of one call of a generated `run_{name}_hook` function:
the callbacks invoked (in order), the registration list after the call,
the propagated error (if any) and the legacy call performed (if any),
carrying the alias string and the argument values passed to `runHook`. -/
structure HookRun (E Cb α : Type) where
  invoked : List Cb
  regAfter : List Cb
  err : Option E
  legacyCall : Option (String × α)
deriving DecidableEq

/-- The `for hook in {full_name}: try: hook(...) except: remove; raise`
loop.  `full` is the registration list being iterated (and mutated on
failure); `pending` the not-yet-visited tail.  Returns the invoked
callbacks, the list after the loop and the propagated error. -/
def hookLoop [DecidableEq Cb] (call : Cb → Except E Unit) (full : List Cb) :
    List Cb → List Cb × List Cb × Option E
  | [] => ([], full, none)
  | c :: cs =>
    match call c with
    | Except.ok _ =>
      match hookLoop call full cs with
      | (inv, l, e) => (c :: inv, l, e)
    | Except.error e => ([c], full.erase c, some e)

/-- One call of a generated `run_{name}_hook` dispatch function:
run the loop over the registered callbacks with arguments `args`;
if it completes without failure and a legacy alias is declared, perform
`runHook(alias, *args)`; a raised error skips the legacy call. -/
def fireHook [DecidableEq Cb] (call : Cb → Except E Unit) (legacy : Option String)
    (reg : List Cb) (args : α) : HookRun E Cb α :=
  match hookLoop call reg reg with
  | (inv, reg2, none) => ⟨inv, reg2, none, legacy.map fun al => (al, args)⟩
  | (inv, reg2, some e) => ⟨inv, reg2, some e, none⟩

/-- Result of one call of a generated `run_{name}_filter` function.
`res` is the returned value (or the propagated error); `legacyCall` records
the `runFilter(alias, *current-args)` call (alias and the current value of
the first argument); `legacyOut` is the value `runFilter` returned, which
the generated code never reads (it appears in no other field). -/
structure FilterRun (E Cb α γ : Type) where
  invoked : List Cb
  regAfter : List Cb
  res : Except E α
  legacyCall : Option (String × α)
  legacyOut : Option γ

/-- The filter loop: each callback receives the current value `v` of the
first argument (plus the fixed other arguments, absorbed into `call`) and
its result rebinds the first argument for the next iteration; a raised
error evicts the callback from `full` and propagates. -/
def filterLoop [DecidableEq Cb] (call : Cb → α → Except E α) (full : List Cb) :
    List Cb → α → List Cb × List Cb × Except E α
  | [], v => ([], full, Except.ok v)
  | c :: cs, v =>
    match call c v with
    | Except.ok v2 =>
      match filterLoop call full cs v2 with
      | (inv, l, r) => (c :: inv, l, r)
    | Except.error e => ([c], full.erase c, Except.error e)

/-- One call of a generated `run_{name}_filter` dispatch function with
initial first-argument value `v0`.  After a failure-free loop the legacy
mechanism `legacyFn` is invoked on the alias and the *current* (final)
first-argument value; its output lands only in `legacyOut` and the function
returns the final first-argument value (`return {arg_names[0]}`). -/
def fireFilter [DecidableEq Cb] (call : Cb → α → Except E α) (legacy : Option String)
    (legacyFn : String → α → γ) (reg : List Cb) (v0 : α) : FilterRun E Cb α γ :=
  match filterLoop call reg reg v0 with
  | (inv, reg2, Except.ok v) =>
    ⟨inv, reg2, Except.ok v, legacy.map fun al => (al, v),
      legacy.map fun al => legacyFn al v⟩
  | (inv, reg2, Except.error e) => ⟨inv, reg2, Except.error e, none, none⟩

/-! ### The splice driver

`new = re.sub("(?s)# @@AUTOGEN@@.*?# @@AUTOGEN@@\n",
              f"# @@AUTOGEN@@\n\n{code}# @@AUTOGEN@@\n", orig)`

`re.sub` replaces every non-overlapping match, scanning left to right; a
match starts at the leftmost position where the whole pattern can match and,
the `.*?` being lazy, ends at the earliest possible closing `# @@AUTOGEN@@\n`.
The marker has no proper border (no self-overlap), so the leftmost match
starts at the first occurrence of the opening marker that is followed by a
closing occurrence, and `findPat` computes exactly that via two
first-occurrence searches.  `reSub` then iterates over the remainder, as
`re.sub` does.  (The replacement text is inserted literally: the generated
code contains no `\\`-escapes for `re.sub` to interpret.) -/

/-- The sentinel marker `# @@AUTOGEN@@`. -/
def marker : Chars := "# @@AUTOGEN@@".data

/-- The closing pattern `# @@AUTOGEN@@\n`. -/
def markerNl : Chars := "# @@AUTOGEN@@\n".data

/-- Split `s` at the first occurrence of `pat`: returns
`some (before, after)` with `s = before ++ pat ++ after`, `before` minimal;
`none` when `pat` does not occur in `s`. -/
def splitFirst (pat : Chars) : Chars → Option (Chars × Chars)
  | [] => if pat.isPrefixOf ([] : Chars) then some ([], []) else none
  | c :: cs =>
    if pat.isPrefixOf (c :: cs) then some ([], (c :: cs).drop pat.length)
    else
      match splitFirst pat cs with
      | some (a, b) => some (c :: a, b)
      | none => none

/-- The leftmost, lazy match of the pattern
`# @@AUTOGEN@@.*?# @@AUTOGEN@@\n` in `s` (DOTALL): returns
`some (before, after)` around the matched region, or `none` if there is no
match. -/
def findPat (s : Chars) : Option (Chars × Chars) :=
  match splitFirst marker s with
  | none => none
  | some (a, r) =>
    match splitFirst markerNl r with
    | none => none
    | some (_, b) => some (a, b)

/-- Fuel-indexed left-to-right global substitution (the fuel makes the
recursion structural so that the kernel can evaluate it; any fuel
`≥ s.length` computes the same value, see `reSubF_fuel`). -/
def reSubF (repl : Chars) : Nat → Chars → Chars
  | 0, s => s
  | fuel + 1, s =>
    match findPat s with
    | none => s
    | some (a, b) => a ++ repl ++ reSubF repl fuel b

/-- `re.sub` of the AUTOGEN pattern by `repl` over the whole of `s`. -/
def reSub (repl : Chars) (s : Chars) : Chars :=
  reSubF repl s.length s

/-- The replacement text `f"# @@AUTOGEN@@\n\n{code}# @@AUTOGEN@@\n"`. -/
def replData (code : Chars) : Chars :=
  marker ++ "\n\n".data ++ code ++ markerNl

/-- The splice step: substitute every AUTOGEN region of `orig` by the
replacement built from the generated blob `code`. -/
def splice (code orig : Chars) : Chars :=
  reSub (replData code) orig

/-- A full generation run over target content `orig`: build the blob
(any generation error aborts the run before the target is read or
written), then splice.  An `Except.error` result models an aborted run
that left the target file untouched. -/
def runGeneration (hooks : List Hook) (orig : Chars) : Except GenError Chars :=
  match genCode hooks with
  | Except.error e => Except.error e
  | Except.ok code => Except.ok (splice code orig)

/-- Modelled from the spec (the claim's description of the synthesized
callable type): `Callable[[T1, ..., Tn], R]` with the parsed type
expressions joined by `", "` and `R` the declared return type — amended to
fall back to `"None"` also for an *empty* declared return type, which is
what the Python `or` idiom does. -/
def callableSpec (argTypes : List Chars) (rt : Option String) : Chars :=
  "Callable[[".data ++ joinSep ", ".data argTypes ++ "], ".data
    ++ (match rt with
        | none => "None".data
        | some r => if r = "" then "None".data else r.data) ++ "]".data

/-- Equality of `Except` values is decidable when both component types
have decidable equality (used to evaluate concrete dispatch outcomes). -/
instance {E α : Type u} [DecidableEq E] [DecidableEq α] : DecidableEq (Except E α) := by
  intro a b
  cases a <;> cases b
  case error.error e1 e2 =>
    exact if h : e1 = e2 then isTrue (by rw [h]) else isFalse (by simp [h])
  case error.ok e1 a2 => exact isFalse (by simp)
  case ok.error a1 e2 => exact isFalse (by simp)
  case ok.ok a1 a2 =>
    exact if h : a1 = a2 then isTrue (by rw [h]) else isFalse (by simp [h])

/-! ## Helper lemmas: the dispatch loops -/

/-- When every pending callback succeeds, the hook loop invokes all of them
in order, leaves the registration list unchanged and reports no error. -/
theorem hookLoop_ok {E Cb : Type} [DecidableEq Cb] (call : Cb → Except E Unit)
    (full : List Cb) :
    ∀ pending, (∀ x ∈ pending, call x = Except.ok ()) →
      hookLoop call full pending = (pending, full, none) := by
  intro pending
  induction pending with
  | nil => intro _; rfl
  | cons c cs ih =>
    intro h
    have hc : call c = Except.ok () := h c (by simp)
    have hrest := ih (fun x hx => h x (by simp [hx]))
    simp [hookLoop, hc, hrest]

/-- When the callbacks before `c` succeed and `c` raises `e`, the hook loop
invokes exactly the prefix and `c`, erases (the first occurrence of) `c`
from the registration list and propagates `e`. -/
theorem hookLoop_fail {E Cb : Type} [DecidableEq Cb] (call : Cb → Except E Unit)
    (full : List Cb) (c : Cb) (e : E) :
    ∀ pre post, (∀ x ∈ pre, call x = Except.ok ()) → call c = Except.error e →
      hookLoop call full (pre ++ c :: post) = (pre ++ [c], full.erase c, some e) := by
  intro pre
  induction pre with
  | nil => intro post _ hc; simp [hookLoop, hc]
  | cons p ps ih =>
    intro post h hc
    have hp : call p = Except.ok () := h p (by simp)
    have hrest := ih post (fun x hx => h x (by simp [hx])) hc
    simp [hookLoop, hp, hrest]

/-- A callback that raises cannot be among callbacks that succeeded
(`call` is a function, so its outcome on `c` is unique). -/
theorem not_mem_of_ok_of_error {E Cb : Type} {call : Cb → Except E Unit}
    {pre : List Cb} {c : Cb} {e : E}
    (h : ∀ x ∈ pre, call x = Except.ok ()) (hc : call c = Except.error e) :
    c ∉ pre := by
  intro hmem
  have := h c hmem
  rw [hc] at this
  exact Except.noConfusion this

/-- When every callback is a pure transformation `g`, the filter loop
threads the first argument through all of them: it computes the left fold
of `g` over the pending callbacks. -/
theorem filterLoop_ok {E Cb α : Type} [DecidableEq Cb] (g : Cb → α → α)
    (full : List Cb) :
    ∀ pending v,
      filterLoop (fun c v => (Except.ok (g c v) : Except E α)) full pending v
        = (pending, full, Except.ok (pending.foldl (fun v c => g c v) v)) := by
  intro pending
  induction pending with
  | nil => intro v; rfl
  | cons c cs ih => intro v; simp [filterLoop, ih (g c v)]

/-! ## C1: eviction-on-failure in generated hook dispatch -/

/-- C1 (amended): if the callbacks before `c` succeed and `c` raises `e`
during a generated hook dispatch, then the error `e` itself propagates to
the caller, no callback after `c` is invoked (the invocation list is
exactly the successful prefix plus `c`), the *first occurrence* of `c` is
removed from the registration list — so `c` is no longer present whenever
it was not also registered again after the failing position — and the
legacy mechanism is not invoked. -/
theorem hook_eviction_on_failure {E Cb α : Type} [DecidableEq Cb]
    (call : Cb → Except E Unit) (legacy : Option String) (args : α)
    (pre post : List Cb) (c : Cb) (e : E)
    (hpre : ∀ x ∈ pre, call x = Except.ok ()) (hc : call c = Except.error e) :
    (fireHook call legacy (pre ++ c :: post) args).err = some e ∧
    (fireHook call legacy (pre ++ c :: post) args).invoked = pre ++ [c] ∧
    (fireHook call legacy (pre ++ c :: post) args).regAfter = pre ++ post ∧
    (c ∉ post → c ∉ (fireHook call legacy (pre ++ c :: post) args).regAfter) ∧
    (fireHook call legacy (pre ++ c :: post) args).legacyCall = none := by
  have hnm : c ∉ pre := not_mem_of_ok_of_error hpre hc
  have hloop := hookLoop_fail call (pre ++ c :: post) c e pre post hpre hc
  have herase : (pre ++ c :: post).erase c = pre ++ post := by
    rw [List.erase_append_right _ hnm, List.erase_cons_head]
  refine ⟨?_, ?_, ?_, ?_, ?_⟩ <;>
    simp [fireHook, hloop, herase, hnm]

/-- C1 as literally stated is false: when the same callback is registered
twice and raises, only the first occurrence is removed, so after the
dispatch the failing callback is still present in the registration list. -/
theorem hook_eviction_duplicate_counterexample :
    (fireHook (fun _ : Nat => (Except.error 5 : Except Nat Unit)) none [7, 7] ()).err
        = some 5 ∧
    7 ∈ (fireHook (fun _ : Nat => (Except.error 5 : Except Nat Unit)) none [7, 7] ()).regAfter := by
  decide

/-- Witness for C1 (amended), two distinct callbacks where the first
raises: the first is evicted, the second is never invoked, and the caller
observes the original error. -/
theorem hook_eviction_on_failure_witness :
    (∀ x ∈ ([] : List Nat),
      (fun n : Nat => if n = 1 then (Except.error 37 : Except Nat Unit) else Except.ok ()) x
        = Except.ok ()) ∧
    (fun n : Nat => if n = 1 then (Except.error 37 : Except Nat Unit) else Except.ok ()) 1
        = Except.error 37 ∧
    ((fireHook (fun n : Nat => if n = 1 then (Except.error 37 : Except Nat Unit) else Except.ok ())
        (some "on_leech") ([] ++ 1 :: [2]) "card").err = some 37 ∧
      (fireHook (fun n : Nat => if n = 1 then (Except.error 37 : Except Nat Unit) else Except.ok ())
        (some "on_leech") ([] ++ 1 :: [2]) "card").invoked = [] ++ [1] ∧
      (fireHook (fun n : Nat => if n = 1 then (Except.error 37 : Except Nat Unit) else Except.ok ())
        (some "on_leech") ([] ++ 1 :: [2]) "card").regAfter = [] ++ [2] ∧
      ((1 : Nat) ∉ [2] →
        (1 : Nat) ∉ (fireHook (fun n : Nat => if n = 1 then (Except.error 37 : Except Nat Unit) else Except.ok ())
          (some "on_leech") ([] ++ 1 :: [2]) "card").regAfter) ∧
      (fireHook (fun n : Nat => if n = 1 then (Except.error 37 : Except Nat Unit) else Except.ok ())
        (some "on_leech") ([] ++ 1 :: [2]) "card").legacyCall = none) :=
  ⟨by decide, by decide,
    hook_eviction_on_failure
      (fun n : Nat => if n = 1 then (Except.error 37 : Except Nat Unit) else Except.ok ())
      (some "on_leech") "card" [] [2] 1 37 (by decide) (by decide)⟩

/-! ## C2: filter threading -/

/-- C2: in a generated filter dispatch whose callbacks are pure
transformations `g · · others` of the first argument, the dispatch returns
the left-to-right chain of the callbacks applied to the initial value `v0`
(each callback receives the current first-argument value plus the fixed
other arguments, and its result rebinds the first argument); for two
callbacks this is `f2 (f1 v0 others) others`, and with no registered
callbacks the initial value comes back unchanged. -/
theorem filter_threading {Cb α β γ : Type} [DecidableEq Cb]
    (g : Cb → α → β → α) (others : β) (legacy : Option String)
    (legacyFn : String → α → γ) (v0 : α) (reg : List Cb) (f1 f2 : Cb) :
    (fireFilter (fun c v => (Except.ok (g c v others) : Except Unit α))
        legacy legacyFn reg v0).res
      = Except.ok (reg.foldl (fun v c => g c v others) v0) ∧
    (fireFilter (fun c v => (Except.ok (g c v others) : Except Unit α))
        legacy legacyFn [f1, f2] v0).res
      = Except.ok (g f2 (g f1 v0 others) others) ∧
    (fireFilter (fun c v => (Except.ok (g c v others) : Except Unit α))
        legacy legacyFn ([] : List Cb) v0).res
      = Except.ok v0 := by
  refine ⟨?_, ?_, ?_⟩ <;>
    simp [fireFilter, filterLoop_ok (fun c v => g c v others)]

/-! ## C3: legacy bridging -/

/-- C3: with a legacy alias declared, (hook variant) a failure-free
dispatch performs exactly one legacy call, with the alias string and the
original argument values, while a dispatch in which some callback raised
performs none; (filter variant) a failure-free dispatch performs exactly
one legacy call with the alias and the current — final, threaded — value
of the first argument, the legacy result is discarded rather than folded
into the returned value (the returned value is the threaded fold whatever
`legacyFn` returns), and a failed dispatch performs no legacy call. -/
theorem legacy_bridging {E Cb α α2 γ : Type} [DecidableEq Cb]
    (call : Cb → Except E Unit) (al alF : String) (args : α)
    (regH regHF regFS regFF : List Cb)
    (g : Cb → α2 → α2) (fcall : Cb → α2 → Except E α2)
    (legacyFn legacyFn2 : String → α2 → γ) (v0 : α2) (e eF : E) :
    ((∀ x ∈ regH, call x = Except.ok ()) →
      (fireHook call (some al) regH args).legacyCall = some (al, args) ∧
      (fireHook call (some al) regH args).err = none ∧
      (fireHook call (some al) regH args).invoked = regH) ∧
    ((hookLoop call regHF regHF).2.2 = some e →
      (fireHook call (some al) regHF args).legacyCall = none) ∧
    ((fireFilter (fun c v => (Except.ok (g c v) : Except E α2))
        (some alF) legacyFn regFS v0).legacyCall
      = some (alF, regFS.foldl (fun v c => g c v) v0) ∧
     (fireFilter (fun c v => (Except.ok (g c v) : Except E α2))
        (some alF) legacyFn regFS v0).legacyOut
      = some (legacyFn alF (regFS.foldl (fun v c => g c v) v0)) ∧
     (fireFilter (fun c v => (Except.ok (g c v) : Except E α2))
        (some alF) legacyFn regFS v0).res
      = Except.ok (regFS.foldl (fun v c => g c v) v0) ∧
     (fireFilter (fun c v => (Except.ok (g c v) : Except E α2))
        (some alF) legacyFn regFS v0).res
      = (fireFilter (fun c v => (Except.ok (g c v) : Except E α2))
          (some alF) legacyFn2 regFS v0).res) ∧
    ((filterLoop fcall regFF regFF v0).2.2 = Except.error eF →
      (fireFilter fcall (some alF) legacyFn regFF v0).legacyCall = none ∧
      (fireFilter fcall (some alF) legacyFn regFF v0).res = Except.error eF) := by
  refine ⟨?_, ?_, ?_, ?_⟩
  · intro h
    have hloop := hookLoop_ok call regH regH h
    refine ⟨?_, ?_, ?_⟩ <;> simp [fireHook, hloop]
  · intro h
    unfold fireHook
    rcases hl : hookLoop call regHF regHF with ⟨inv, l, err⟩
    rw [hl] at h
    simp only at h
    subst h
    simp
  · refine ⟨?_, ?_, ?_, ?_⟩ <;> simp [fireFilter, filterLoop_ok g]
  · intro h
    unfold fireFilter
    rcases hl : filterLoop fcall regFF regFF v0 with ⟨inv, l, r⟩
    rw [hl] at h
    simp only at h
    subst h
    simp

/-- Witness for C3 at concrete inputs: a two-callback hook that succeeds,
a hook whose first callback raises, a two-callback pure filter chain and a
filter whose first callback raises; every hypothesis is discharged. -/
theorem legacy_bridging_witness :
    ((fireHook (fun n : Nat => if n = 3 then (Except.error 9 : Except Nat Unit) else Except.ok ())
        (some "leech") [1, 2] "card").legacyCall = some ("leech", "card") ∧
     (fireHook (fun n : Nat => if n = 3 then (Except.error 9 : Except Nat Unit) else Except.ok ())
        (some "leech") [1, 2] "card").err = none ∧
     (fireHook (fun n : Nat => if n = 3 then (Except.error 9 : Except Nat Unit) else Except.ok ())
        (some "leech") [1, 2] "card").invoked = [1, 2]) ∧
    (fireHook (fun n : Nat => if n = 3 then (Except.error 9 : Except Nat Unit) else Except.ok ())
        (some "leech") [3, 2] "card").legacyCall = none ∧
    ((fireFilter (fun (c : Nat) (v : Nat) => (Except.ok (v * 10 + c) : Except Nat Nat))
        (some "modSchema") (fun _ v => v + 1000) [1, 2] 9).legacyCall
      = some ("modSchema", [1, 2].foldl (fun v c => v * 10 + c) 9) ∧
     (fireFilter (fun (c : Nat) (v : Nat) => (Except.ok (v * 10 + c) : Except Nat Nat))
        (some "modSchema") (fun _ v => v + 1000) [1, 2] 9).legacyOut
      = some ((fun (_ : String) (v : Nat) => v + 1000) "modSchema"
          ([1, 2].foldl (fun v c => v * 10 + c) 9)) ∧
     (fireFilter (fun (c : Nat) (v : Nat) => (Except.ok (v * 10 + c) : Except Nat Nat))
        (some "modSchema") (fun _ v => v + 1000) [1, 2] 9).res
      = Except.ok ([1, 2].foldl (fun v c => v * 10 + c) 9) ∧
     (fireFilter (fun (c : Nat) (v : Nat) => (Except.ok (v * 10 + c) : Except Nat Nat))
        (some "modSchema") (fun _ v => v + 1000) [1, 2] 9).res
      = (fireFilter (fun (c : Nat) (v : Nat) => (Except.ok (v * 10 + c) : Except Nat Nat))
          (some "modSchema") (fun _ v => v + 7) [1, 2] 9).res) ∧
    ((fireFilter (fun (c : Nat) (v : Nat) =>
        if c = 1 then (Except.error 4 : Except Nat Nat) else Except.ok v)
        (some "modSchema") (fun _ v => v + 1000) [1, 2] 9).legacyCall = none ∧
     (fireFilter (fun (c : Nat) (v : Nat) =>
        if c = 1 then (Except.error 4 : Except Nat Nat) else Except.ok v)
        (some "modSchema") (fun _ v => v + 1000) [1, 2] 9).res = Except.error 4) := by
  have h := legacy_bridging
    (fun n : Nat => if n = 3 then (Except.error 9 : Except Nat Unit) else Except.ok ())
    "leech" "modSchema" "card" [1, 2] [3, 2] [1, 2] [1, 2] (fun c v => v * 10 + c)
    (fun (c : Nat) (v : Nat) => if c = 1 then (Except.error 4 : Except Nat Nat) else Except.ok v)
    (fun _ v => v + 1000) (fun _ v => v + 7) 9 9 4
  exact ⟨h.1 (by decide), h.2.1 (by decide), h.2.2.1, h.2.2.2 (by decide)⟩

/-! ## Helper lemmas: the name sort -/

/-- Lexicographic comparison is asymmetric. -/
theorem charsLt_asymm : ∀ a b : Chars, charsLt a b = true → charsLt b a = false := by
  intro a
  induction a with
  | nil =>
    intro b hab
    cases b with
    | nil => simp [charsLt] at hab
    | cons cb bs => simp [charsLt]
  | cons ca as ih =>
    intro b hab
    cases b with
    | nil => simp [charsLt] at hab
    | cons cb bs =>
      simp only [charsLt] at hab ⊢
      rcases lt_trichotomy ca cb with h | h | h
      · rw [if_neg (not_lt_of_gt h), if_pos h]
      · subst h
        rw [if_neg (lt_irrefl ca), if_neg (lt_irrefl ca)] at hab ⊢
        exact ih bs hab
      · rw [if_neg (not_lt_of_gt h), if_pos h] at hab
        exact Bool.noConfusion hab

/-- Lexicographic comparison is connex: two strings neither of which is
less than the other are equal. -/
theorem charsLt_connex : ∀ a b : Chars, charsLt a b = false → charsLt b a = false → a = b := by
  intro a
  induction a with
  | nil =>
    intro b hab _
    cases b with
    | nil => rfl
    | cons cb bs => simp [charsLt] at hab
  | cons ca as ih =>
    intro b hab hba
    cases b with
    | nil => simp [charsLt] at hba
    | cons cb bs =>
      simp only [charsLt] at hab hba
      rcases lt_trichotomy ca cb with h | h | h
      · rw [if_pos h] at hab
        exact Bool.noConfusion hab
      · subst h
        rw [if_neg (lt_irrefl ca), if_neg (lt_irrefl ca)] at hab hba
        rw [ih bs hab hba]
      · rw [if_pos h] at hba
        exact Bool.noConfusion hba

/-- Lexicographic comparison is transitive. -/
theorem charsLt_trans : ∀ a b c : Chars,
    charsLt a b = true → charsLt b c = true → charsLt a c = true := by
  intro a
  induction a with
  | nil =>
    intro b c hab hbc
    cases b with
    | nil => simp [charsLt] at hab
    | cons cb bs =>
      cases c with
      | nil => simp [charsLt] at hbc
      | cons cc cs => simp [charsLt]
  | cons ca as ih =>
    intro b c hab hbc
    cases b with
    | nil => simp [charsLt] at hab
    | cons cb bs =>
      cases c with
      | nil => simp [charsLt] at hbc
      | cons cc cs =>
        simp only [charsLt] at hab hbc ⊢
        rcases lt_trichotomy ca cb with h1 | h1 | h1
        · rcases lt_trichotomy cb cc with h2 | h2 | h2
          · rw [if_pos (lt_trans h1 h2)]
          · subst h2
            rw [if_pos h1]
          · rw [if_neg (not_lt_of_gt h2), if_pos h2] at hbc
            exact Bool.noConfusion hbc
        · subst h1
          rw [if_neg (lt_irrefl ca), if_neg (lt_irrefl ca)] at hab
          rcases lt_trichotomy ca cc with h2 | h2 | h2
          · rw [if_pos h2]
          · subst h2
            rw [if_neg (lt_irrefl ca), if_neg (lt_irrefl ca)] at hbc ⊢
            exact ih bs cs hab hbc
          · rw [if_neg (not_lt_of_gt h2), if_pos h2] at hbc
            exact Bool.noConfusion hbc
        · rw [if_neg (not_lt_of_gt h1), if_pos h1] at hab
          exact Bool.noConfusion hab

/-- The order in which `sortHooks` leaves adjacent hooks:
`b` is not lexicographically smaller than `a`. -/
def hookLe (a b : Hook) : Prop := charsLt b.name.data a.name.data = false

/-- Membership in an insertion. -/
theorem mem_insertHook : ∀ (l : List Hook) (h a : Hook),
    a ∈ insertHook h l ↔ a = h ∨ a ∈ l := by
  intro l h
  induction l with
  | nil => intro a; simp [insertHook]
  | cons x xs ih =>
    intro a
    cases hc : charsLt h.name.data x.name.data
    · simp only [insertHook, hc, Bool.false_eq_true, if_false, List.mem_cons, ih a]
      tauto
    · simp [insertHook, hc, List.mem_cons]

/-- Inserting into a sorted accumulator keeps it sorted. -/
theorem insertHook_pairwise : ∀ (l : List Hook) (h : Hook),
    List.Pairwise hookLe l → List.Pairwise hookLe (insertHook h l) := by
  intro l
  induction l with
  | nil => intro h _; simp [insertHook, List.Pairwise]
  | cons x xs ih =>
    intro h hp
    rcases List.pairwise_cons.mp hp with ⟨hx, hxs⟩
    cases hc : charsLt h.name.data x.name.data
    · simp only [insertHook, hc, Bool.false_eq_true, if_false]
      refine List.pairwise_cons.mpr ⟨?_, ih h hxs⟩
      intro b hb
      rcases (mem_insertHook xs h b).mp hb with rfl | hb2
      · exact hc
      · exact hx b hb2
    · simp only [insertHook, hc, if_true]
      refine List.pairwise_cons.mpr ⟨?_, hp⟩
      intro b hb
      rcases List.mem_cons.mp hb with rfl | hb2
      · exact charsLt_asymm _ _ hc
      · have hxb := hx b hb2
        unfold hookLe
        by_contra hbh
        rw [Bool.not_eq_false] at hbh
        have : charsLt b.name.data x.name.data = true :=
          charsLt_trans _ _ _ hbh hc
        rw [hxb] at this
        exact Bool.noConfusion this

/-- Insertion permutes: the result is the inserted element plus the rest. -/
theorem insertHook_perm : ∀ (l : List Hook) (h : Hook), (insertHook h l).Perm (h :: l) := by
  intro l
  induction l with
  | nil => intro h; exact List.Perm.refl _
  | cons x xs ih =>
    intro h
    cases hc : charsLt h.name.data x.name.data
    · simp only [insertHook, hc, Bool.false_eq_true, if_false]
      exact ((ih h).cons x).trans (List.Perm.swap h x xs)
    · simp only [insertHook, hc, if_true]
      exact List.Perm.refl _

/-- The sort is a permutation of its input. -/
theorem sortHooks_perm (l : List Hook) : (sortHooks l).Perm l := by
  have main : ∀ (l acc : List Hook),
      (List.foldl (fun acc h => insertHook h acc) acc l).Perm (acc ++ l) := by
    intro l
    induction l with
    | nil => intro acc; simp
    | cons x xs ih =>
      intro acc
      have h1 := ih (insertHook x acc)
      have h3 : (insertHook x acc).Perm (x :: acc) := insertHook_perm acc x
      have h2 : ((insertHook x acc) ++ xs).Perm (acc ++ x :: xs) :=
        (h3.append_right xs).trans List.perm_middle.symm
      simp only [List.foldl_cons]
      exact h1.trans h2
  simpa using main l []

/-- The sort output is sorted (ascending, by name). -/
theorem sortHooks_pairwise (l : List Hook) : List.Pairwise hookLe (sortHooks l) := by
  have main : ∀ (l acc : List Hook), List.Pairwise hookLe acc →
      List.Pairwise hookLe (List.foldl (fun acc h => insertHook h acc) acc l) := by
    intro l
    induction l with
    | nil => intro acc h; simpa using h
    | cons x xs ih =>
      intro acc h
      exact ih (insertHook x acc) (insertHook_pairwise acc x h)
  exact main l [] List.Pairwise.nil

/-- Two sorted permutations of each other with pairwise-distinct names are
equal (sortedness plus distinct keys pins the order down). -/
theorem sorted_eq_of_perm (l1 l2 : List Hook) (hperm : l1.Perm l2)
    (hs1 : List.Pairwise hookLe l1) (hs2 : List.Pairwise hookLe l2)
    (hnd : List.Pairwise (fun a b => a.name ≠ b.name) l1) : l1 = l2 := by
  have hnd2 : List.Pairwise (fun a b : Hook => a.name ≠ b.name) l2 :=
    (hperm.pairwise_iff (fun hab => Ne.symm hab)).mp hnd
  have strict : ∀ (l : List Hook), List.Pairwise hookLe l →
      List.Pairwise (fun a b : Hook => a.name ≠ b.name) l →
      List.Pairwise (fun a b : Hook => charsLt a.name.data b.name.data = true) l := by
    intro l hl hne
    refine (hl.and hne).imp ?_
    intro a b hab
    rcases hab with ⟨h1, h2⟩
    by_contra hfalse
    rw [Bool.not_eq_true] at hfalse
    have h4 := charsLt_connex _ _ hfalse h1
    exact h2 (String.ext h4)
  haveI : IsAntisymm Hook (fun a b : Hook => charsLt a.name.data b.name.data = true) := by
    constructor
    intro a b h1 h2
    have h3 := charsLt_asymm _ _ h1
    rw [h2] at h3
    exact Bool.noConfusion h3
  exact List.eq_of_perm_of_sorted hperm (strict l1 hs1 hnd) (strict l2 hs2 hnd2)

/-! ## C6: determinism of generation under reordering -/

/-- C6 (amended): for declarations with pairwise-distinct names, the
generated blob is byte-identical for any two orderings of the declaration
list, because the generator sorts by ascending lexical name order before
emitting. -/
theorem generation_deterministic (l1 l2 : List Hook) (hperm : l1.Perm l2)
    (hnd : List.Pairwise (fun a b => a.name ≠ b.name) l1) :
    genCode l1 = genCode l2 := by
  have hs : sortHooks l1 = sortHooks l2 := by
    refine sorted_eq_of_perm _ _ ?_ (sortHooks_pairwise l1) (sortHooks_pairwise l2) ?_
    · exact (sortHooks_perm l1).trans (hperm.trans (sortHooks_perm l2).symm)
    · exact ((sortHooks_perm l1).pairwise_iff (fun hab => Ne.symm hab)).mpr hnd
  unfold genCode
  rw [hs]

/-- C6 as literally stated is false for a multiset containing two
declarations with the same name: Python's sort is stable, so both
orderings survive sorting unchanged and the emitted blobs differ. -/
theorem generation_order_counterexample :
    (Hook.mk "a" "x: int" none none).name = (Hook.mk "a" "" none none).name ∧
    genCode [Hook.mk "a" "x: int" none none, Hook.mk "a" "" none none]
      ≠ genCode [Hook.mk "a" "" none none, Hook.mk "a" "x: int" none none] := by
  decide

/-- Witness for C6 (amended) on a concrete two-element reordering with
distinct names. -/
theorem generation_deterministic_witness :
    ([Hook.mk "b" "" none none, Hook.mk "a" "x: int" none none].Perm
      [Hook.mk "a" "x: int" none none, Hook.mk "b" "" none none]) ∧
    List.Pairwise (fun a b : Hook => a.name ≠ b.name)
      [Hook.mk "b" "" none none, Hook.mk "a" "x: int" none none] ∧
    genCode [Hook.mk "b" "" none none, Hook.mk "a" "x: int" none none]
      = genCode [Hook.mk "a" "x: int" none none, Hook.mk "b" "" none none] :=
  ⟨List.Perm.swap _ _ _, by decide,
    generation_deterministic _ _ (List.Perm.swap _ _ _) (by decide)⟩

/-! ## Helper lemmas: signature parsing -/

/-- A parse succeeds exactly when every non-empty comma segment splits at
`":"` into exactly two parts (one separating colon). -/
theorem parseLoop_ok_iff (proj : Chars → Chars → Chars) :
    ∀ l : List Chars, (∃ xs, parseLoop proj l = Except.ok xs) ↔
      (∀ seg ∈ l, seg ≠ [] → (splitOnChar ':' seg).length = 2) := by
  intro l
  induction l with
  | nil => simp [parseLoop]
  | cons arg rest ih =>
    by_cases ha : arg = []
    · subst ha
      simp only [parseLoop, if_pos rfl]
      constructor
      · intro hok seg hseg hne
        rcases List.mem_cons.mp hseg with rfl | h2
        · exact absurd rfl hne
        · exact ih.mp hok seg h2 hne
      · intro hseg
        exact ih.mpr (fun seg h2 hne => hseg seg (List.mem_cons_of_mem _ h2) hne)
    · simp only [parseLoop, if_neg ha]
      rcases hs : splitOnChar ':' arg with _ | ⟨n, _ | ⟨t, _ | ⟨r, rs⟩⟩⟩
      · constructor
        · rintro ⟨xs, hxs⟩; exact Except.noConfusion hxs
        · intro hseg
          have := hseg arg (List.mem_cons_self _ _) ha
          rw [hs] at this
          simp at this
      · constructor
        · rintro ⟨xs, hxs⟩; exact Except.noConfusion hxs
        · intro hseg
          have := hseg arg (List.mem_cons_self _ _) ha
          rw [hs] at this
          simp at this
      · cases hrest : parseLoop proj rest with
        | ok xs =>
          constructor
          · intro _ seg hseg hne
            rcases List.mem_cons.mp hseg with rfl | h2
            · rw [hs]; rfl
            · exact ih.mp ⟨xs, hrest⟩ seg h2 hne
          · intro _
            exact ⟨proj n t :: xs, rfl⟩
        | error e =>
          constructor
          · rintro ⟨xs, hxs⟩
            simp at hxs
          · intro hseg
            have hok := ih.mpr (fun seg h2 hne => hseg seg (List.mem_cons_of_mem _ h2) hne)
            rcases hok with ⟨xs, hxs⟩
            rw [hrest] at hxs
            exact absurd hxs (by simp)
      · constructor
        · rintro ⟨xs, hxs⟩; exact Except.noConfusion hxs
        · intro hseg
          have := hseg arg (List.mem_cons_self _ _) ha
          rw [hs] at this
          simp at this

/-- The only parse error is `malformedSignature`. -/
theorem parseLoop_error_eq (proj : Chars → Chars → Chars) :
    ∀ l e, parseLoop proj l = Except.error e → e = GenError.malformedSignature := by
  intro l
  induction l with
  | nil => intro e he; exact Except.noConfusion he
  | cons arg rest ih =>
    intro e he
    by_cases ha : arg = []
    · rw [ha] at he
      simp only [parseLoop, if_pos rfl] at he
      exact ih e he
    · simp only [parseLoop, if_neg ha] at he
      rcases hs : splitOnChar ':' arg with _ | ⟨n, _ | ⟨t, _ | ⟨r, rs⟩⟩⟩ <;> rw [hs] at he
      · simp only at he; injection he with he2; exact he2.symm
      · simp only at he; injection he with he2; exact he2.symm
      · cases hrest : parseLoop proj rest with
        | ok xs => rw [hrest] at he; simp at he
        | error e2 =>
          rw [hrest] at he
          simp only [] at he
          injection he with he2
          subst he2
          exact ih e2 hrest
      · simp only at he; injection he with he2; exact he2.symm

/-- A parse either succeeds or fails with `malformedSignature`. -/
theorem parseLoop_ok_or (proj : Chars → Chars → Chars) (l : List Chars) :
    (∃ xs, parseLoop proj l = Except.ok xs) ∨
      parseLoop proj l = Except.error GenError.malformedSignature := by
  cases h : parseLoop proj l with
  | ok xs => exact Or.inl ⟨xs, rfl⟩
  | error e =>
    have he := parseLoop_error_eq proj l e h
    subst he
    exact Or.inr rfl

/-- `argTypes` and `arg_names` fail together (same loop, same error). -/
theorem argTypes_error_iff (h : Hook) :
    h.argTypes = Except.error GenError.malformedSignature ↔
      h.arg_names = Except.error GenError.malformedSignature := by
  unfold Hook.argTypes Hook.arg_names
  constructor
  · intro he
    rcases parseLoop_ok_or (fun n _ => pyStrip n) (splitOnChar ',' h.cb_args.data) with ⟨xs, hxs⟩ | h2
    · exfalso
      have hcond := (parseLoop_ok_iff (fun n _ => pyStrip n) _).mp ⟨xs, hxs⟩
      rcases (parseLoop_ok_iff (fun _ t => pyStrip t) _).mpr hcond with ⟨ys, hys⟩
      rw [he] at hys
      exact Except.noConfusion hys
    · exact h2
  · intro he
    rcases parseLoop_ok_or (fun _ t => pyStrip t) (splitOnChar ',' h.cb_args.data) with ⟨xs, hxs⟩ | h2
    · exfalso
      have hcond := (parseLoop_ok_iff (fun _ t => pyStrip t) _).mp ⟨xs, hxs⟩
      rcases (parseLoop_ok_iff (fun n _ => pyStrip n) _).mpr hcond with ⟨ys, hys⟩
      rw [he] at hys
      exact Except.noConfusion hys
    · exact h2

/-- Failing step inside a monadic fold over `Except` fails the fold. -/
theorem foldlM_error (g : Chars → Hook → Except GenError Chars) :
    ∀ (l : List Hook) (init : Chars) (x : Hook), x ∈ l →
      (∀ acc, ∃ e, g acc x = Except.error e) →
      ∃ e, l.foldlM g init = Except.error e := by
  intro l
  induction l with
  | nil => intro init x hx _; simp at hx
  | cons y ys ih =>
    intro init x hx hgx
    rcases List.mem_cons.mp hx with rfl | hx2
    · rcases hgx init with ⟨e, he⟩
      refine ⟨e, ?_⟩
      rw [List.foldlM_cons, he]
      rfl
    · cases hy : g init y with
      | error e =>
        refine ⟨e, ?_⟩
        rw [List.foldlM_cons, hy]
        rfl
      | ok b =>
        rcases ih b x hx2 hgx with ⟨e, he⟩
        refine ⟨e, ?_⟩
        rw [List.foldlM_cons, hy]
        exact he

/-- A hook whose `list_code` fails makes the whole blob assembly fail. -/
theorem genCode_error_of_mem (hooks : List Hook) (h : Hook) (hmem : h ∈ hooks)
    (herr : h.list_code = Except.error GenError.malformedSignature) :
    ∃ e, genCode hooks = Except.error e := by
  have hmem2 : h ∈ sortHooks hooks := ((sortHooks_perm hooks).mem_iff).mpr hmem
  have hstep : ∀ acc : Chars, ∃ e,
      (fun (acc : Chars) (h2 : Hook) =>
        match h2.list_code with
        | Except.ok c => Except.ok (acc ++ c)
        | Except.error e => (Except.error e : Except GenError Chars)) acc h = Except.error e :=
    fun acc => ⟨GenError.malformedSignature, by simp only []; rw [herr]⟩
  rcases foldlM_error
      (fun (acc : Chars) (h2 : Hook) =>
        match h2.list_code with
        | Except.ok c => Except.ok (acc ++ c)
        | Except.error e => (Except.error e : Except GenError Chars))
      (sortHooks hooks) [] h hmem2 hstep with ⟨e, he⟩
  refine ⟨e, ?_⟩
  simp only [genCode]
  rw [he]

/-- `callable` (and hence `list_code`) fails when the types fail to parse. -/
theorem list_code_error (h : Hook)
    (he : h.argTypes = Except.error GenError.malformedSignature) :
    h.list_code = Except.error GenError.malformedSignature := by
  simp [Hook.list_code, Hook.callable, he]

/-! ## C9: malformed signatures abort generation -/

/-- C9 (amended): parsing a declaration's callback arguments succeeds
exactly when every non-empty comma-separated segment splits at `":"` into
exactly two parts (exactly one colon); a declaration with a segment that
does not — no colon, or more than one — fails with `MalformedSignature`
(the tuple-unpack `ValueError`), and a generation run over any declaration
list containing such a declaration aborts with an error before producing
any output for the target. -/
theorem signature_parsing (h : Hook) (hooks : List Hook) (orig : Chars) :
    ((∀ seg ∈ splitOnChar ',' h.cb_args.data, seg ≠ [] → (splitOnChar ':' seg).length = 2) →
      ∃ ns, h.arg_names = Except.ok ns) ∧
    ((∃ seg ∈ splitOnChar ',' h.cb_args.data, seg ≠ [] ∧ (splitOnChar ':' seg).length ≠ 2) →
      h.arg_names = Except.error GenError.malformedSignature) ∧
    (h ∈ hooks → h.arg_names = Except.error GenError.malformedSignature →
      ∃ e, runGeneration hooks orig = Except.error e) := by
  refine ⟨?_, ?_, ?_⟩
  · intro hcond
    exact (parseLoop_ok_iff _ _).mpr hcond
  · rintro ⟨seg, hseg, hne, hlen⟩
    rcases parseLoop_ok_or (fun n _ => pyStrip n) (splitOnChar ',' h.cb_args.data)
      with ⟨xs, hxs⟩ | h2
    · exact absurd ((parseLoop_ok_iff _ _).mp ⟨xs, hxs⟩ seg hseg hne) hlen
    · exact h2
  · intro hmem herr
    have htypes := (argTypes_error_iff h).mpr herr
    rcases genCode_error_of_mem hooks h hmem (list_code_error h htypes) with ⟨e, he⟩
    refine ⟨e, ?_⟩
    unfold runGeneration
    rw [he]

/-- C9 as literally stated is false: a segment can contain a separating
colon and still fail to parse when it contains more than one (Python's
tuple unpack needs exactly two parts) — e.g. `"a: Dict[str: int]"`. -/
theorem signature_parsing_counterexample :
    (∀ seg ∈ splitOnChar ',' "a: Dict[str: int]".data, seg ≠ [] → ':' ∈ seg) ∧
    (Hook.mk "x" "a: Dict[str: int]" none none).arg_names
      = Except.error GenError.malformedSignature := by
  decide

/-- Witness for C9 (amended): a well-formed two-argument signature parses,
a colon-free signature fails, and a run over a list containing the bad
declaration aborts. -/
theorem signature_parsing_witness :
    (∃ ns, (Hook.mk "x" "a: int, b: str" none none).arg_names = Except.ok ns) ∧
    (Hook.mk "y" "bad" none none).arg_names = Except.error GenError.malformedSignature ∧
    (∃ e, runGeneration [Hook.mk "y" "bad" none none] "target".data = Except.error e) := by
  have h1 := signature_parsing (Hook.mk "x" "a: int, b: str" none none) [] []
  have h2 := signature_parsing (Hook.mk "y" "bad" none none)
    [Hook.mk "y" "bad" none none] "target".data
  exact ⟨h1.1 (by decide), h2.2.1 (by decide), h2.2.2 (by decide) (h2.2.1 (by decide))⟩

/-! ## C8: callable-type synthesis -/

/-- C8 (amended): when the types parse, the synthesized callable type is
`Callable[[T1, ..., Tn], R]` with the parsed type texts joined by `", "`
and `R` the declared return type, falling back to `"None"` when the return
type is absent *or empty*; plus the claim's concrete parsing examples
(`"a: int, b: str"`, `""`, and `"a:int"` versus `"a: int"`). -/
theorem callable_synthesis (h : Hook) (ts : List Chars)
    (hts : h.argTypes = Except.ok ts) :
    h.callable = Except.ok (callableSpec ts h.return_type) ∧
    (Hook.mk "x" "a: int, b: str" none none).arg_names = Except.ok ["a".data, "b".data] ∧
    (Hook.mk "x" "a: int, b: str" none none).argTypes = Except.ok ["int".data, "str".data] ∧
    (Hook.mk "x" "a: int, b: str" none none).callable
      = Except.ok "Callable[[int, str], None]".data ∧
    (Hook.mk "x" "" none none).arg_names = Except.ok [] ∧
    (Hook.mk "x" "" none none).argTypes = Except.ok [] ∧
    (Hook.mk "x" "" none none).callable = Except.ok "Callable[[], None]".data ∧
    (Hook.mk "x" "a:int" none none).callable = (Hook.mk "x" "a: int" none none).callable ∧
    (Hook.mk "x" "a:int" none none).arg_names = (Hook.mk "x" "a: int" none none).arg_names := by
  refine ⟨?_, by decide, by decide, by decide, by decide, by decide, by decide, by decide, by decide⟩
  simp only [Hook.callable, hts, callableSpec]
  cases hrt : h.return_type <;> simp [pyOrNone]

/-- C8 as literally stated is false for an empty declared return type: the
Python `or` idiom emits `None`, not the declared empty text. -/
theorem callable_empty_return_counterexample :
    (Hook.mk "x" "" (some "") none).callable = Except.ok "Callable[[], None]".data ∧
    (Hook.mk "x" "" (some "") none).callable ≠ Except.ok "Callable[[], ]".data := by
  decide

/-- Witness for C8 (amended) at a concrete filter declaration. -/
theorem callable_synthesis_witness :
    (Hook.mk "q" "v: int" (some "bool") none).argTypes = Except.ok ["int".data] ∧
    (Hook.mk "q" "v: int" (some "bool") none).callable
      = Except.ok (callableSpec ["int".data] (some "bool")) :=
  ⟨by decide, (callable_synthesis (Hook.mk "q" "v: int" (some "bool") none)
    ["int".data] (by decide)).1⟩

/-! ## C10: filter generation needs a first argument -/

/-- C10: for a filter declaration whose parsed argument list is non-empty,
emitting the dispatch function cannot fail — the first-argument accesses
in the assignment and return lines are in-bounds; a filter with empty
`callbackArgs` makes generation itself fail with an `IndexError`. -/
theorem filter_first_arg_total (h : Hook) :
    (h.return_type.isSome = true → ∀ n ns, h.arg_names = Except.ok (n :: ns) →
      ∃ s, h.fire_code = Except.ok s) ∧
    (h.return_type.isSome = true → h.cb_args = "" →
      h.fire_code = Except.error GenError.indexError) := by
  constructor
  · intro hrt n ns hns
    rcases Option.isSome_iff_exists.mp hrt with ⟨rt, hrt2⟩
    simp only [Hook.fire_code, hrt2, Hook.filter_fire_code, hns]
    exact ⟨_, rfl⟩
  · intro hrt hargs
    rcases Option.isSome_iff_exists.mp hrt with ⟨rt, hrt2⟩
    have hempty : h.arg_names = Except.ok [] := by
      unfold Hook.arg_names
      rw [hargs]
      rfl
    simp only [Hook.fire_code, hrt2, Hook.filter_fire_code, hempty]

/-- Witness for C10: the repository's `mod_schema` filter generates, and a
filter declared with no arguments fails with `IndexError`. -/
theorem filter_first_arg_total_witness :
    (Hook.mk "mod_schema" "proceed: bool" (some "bool") none).return_type.isSome = true ∧
    (Hook.mk "mod_schema" "proceed: bool" (some "bool") none).arg_names
      = Except.ok ["proceed".data] ∧
    (∃ s, (Hook.mk "mod_schema" "proceed: bool" (some "bool") none).fire_code = Except.ok s) ∧
    (Hook.mk "empty_filter" "" (some "bool") none).fire_code
      = Except.error GenError.indexError := by
  have h1 := filter_first_arg_total (Hook.mk "mod_schema" "proceed: bool" (some "bool") none)
  have h2 := filter_first_arg_total (Hook.mk "empty_filter" "" (some "bool") none)
  exact ⟨by decide, by decide, h1.1 (by decide) "proceed".data [] (by decide),
    h2.2 (by decide) rfl⟩

/-! ## Helper lemmas: first-occurrence splitting -/

/-- Soundness of `splitFirst`: a hit decomposes the string. -/
theorem splitFirst_append (pat : Chars) :
    ∀ s a b, splitFirst pat s = some (a, b) → s = a ++ pat ++ b := by
  intro s
  induction s with
  | nil =>
    intro a b h
    simp only [splitFirst] at h
    by_cases hp : pat.isPrefixOf ([] : Chars) = true
    · rw [if_pos hp] at h
      simp only [Option.some.injEq, Prod.mk.injEq] at h
      rcases h with ⟨ha, hb⟩
      have hpat : pat = [] := by
        cases pat with
        | nil => rfl
        | cons p ps => simp [List.isPrefixOf] at hp
      rw [← ha, ← hb, hpat]
      rfl
    · rw [if_neg hp] at h
      exact Option.noConfusion h
  | cons c cs ih =>
    intro a b h
    cases hb : pat.isPrefixOf (c :: cs)
    · simp only [splitFirst, hb, Bool.false_eq_true, if_false] at h
      cases hsf : splitFirst pat cs with
      | none => rw [hsf] at h; exact Option.noConfusion h
      | some ab =>
        rcases ab with ⟨a2, b2⟩
        rw [hsf] at h
        simp only [Option.some.injEq, Prod.mk.injEq] at h
        rcases h with ⟨ha, hb2⟩
        rw [← ha, ← hb2]
        have := ih a2 b2 hsf
        rw [this]
        rfl
    · simp only [splitFirst, hb, if_true] at h
      simp only [Option.some.injEq, Prod.mk.injEq] at h
      rcases h with ⟨ha, hb2⟩
      rcases List.isPrefixOf_iff_prefix.mp hb with ⟨u, hu⟩
      rw [← ha, ← hb2, ← hu, List.drop_left]
      rfl

/-- Minimality of `splitFirst`: the returned head is the shortest. -/
theorem splitFirst_minimal (pat : Chars) :
    ∀ s a b, splitFirst pat s = some (a, b) →
      ∀ x y, s = x ++ pat ++ y → a.length ≤ x.length := by
  intro s
  induction s with
  | nil =>
    intro a b h x y _
    simp only [splitFirst] at h
    by_cases hp : pat.isPrefixOf ([] : Chars) = true
    · rw [if_pos hp] at h
      simp only [Option.some.injEq, Prod.mk.injEq] at h
      rw [← h.1]
      simp
    · rw [if_neg hp] at h
      exact Option.noConfusion h
  | cons c cs ih =>
    intro a b h x y hxy
    cases hb : pat.isPrefixOf (c :: cs)
    · simp only [splitFirst, hb, Bool.false_eq_true, if_false] at h
      cases hsf : splitFirst pat cs with
      | none => rw [hsf] at h; exact Option.noConfusion h
      | some ab =>
        rcases ab with ⟨a2, b2⟩
        rw [hsf] at h
        simp only [Option.some.injEq, Prod.mk.injEq] at h
        rcases h with ⟨ha, _⟩
        cases x with
        | nil =>
          exfalso
          simp only [List.nil_append] at hxy
          have hpre : pat <+: (c :: cs) := ⟨y, hxy.symm⟩
          have := List.isPrefixOf_iff_prefix.mpr hpre
          rw [hb] at this
          exact Bool.noConfusion this
        | cons x0 x1 =>
          simp only [List.cons_append] at hxy
          injection hxy with h1 h2
          have := ih a2 b2 hsf x1 y h2
          rw [← ha]
          simpa using Nat.succ_le_succ this
    · simp only [splitFirst, hb, if_true, Option.some.injEq, Prod.mk.injEq] at h
      rw [← h.1]
      simp

/-- Completeness of `splitFirst`: a miss means no occurrence at all. -/
theorem splitFirst_none (pat : Chars) :
    ∀ s, splitFirst pat s = none → ∀ x y, s ≠ x ++ pat ++ y := by
  intro s
  induction s with
  | nil =>
    intro h x y hxy
    have h0 : (x ++ pat) ++ y = [] := hxy.symm
    rcases List.append_eq_nil.mp h0 with ⟨h1, _⟩
    rcases List.append_eq_nil.mp h1 with ⟨_, hpat⟩
    rw [hpat] at h
    simp [splitFirst, List.isPrefixOf] at h
  | cons c cs ih =>
    intro h x y hxy
    cases hb : pat.isPrefixOf (c :: cs)
    · simp only [splitFirst, hb, Bool.false_eq_true, if_false] at h
      cases hsf : splitFirst pat cs with
      | some ab =>
        rcases ab with ⟨a2, b2⟩
        rw [hsf] at h
        exact Option.noConfusion h
      | none =>
        cases x with
        | nil =>
          simp only [List.nil_append] at hxy
          have hpre : pat <+: (c :: cs) := ⟨y, hxy.symm⟩
          have := List.isPrefixOf_iff_prefix.mpr hpre
          rw [hb] at this
          exact Bool.noConfusion this
        | cons x0 x1 =>
          simp only [List.cons_append] at hxy
          injection hxy with h1 h2
          exact ih hsf x1 y h2
    · simp only [splitFirst, hb, if_true] at h
      exact Option.noConfusion h

/-- The opening marker is non-empty. -/
theorem marker_ne : marker ≠ [] := by decide

/-- The closing marker is non-empty. -/
theorem markerNl_ne : markerNl ≠ [] := by decide

/-- The marker `# @@AUTOGEN@@` has no proper border (no non-trivial prefix
that is also a suffix), hence its occurrences cannot overlap. -/
theorem marker_noBorder :
    ∀ k, 0 < k → k < marker.length → marker.take k ≠ marker.drop (marker.length - k) := by
  intro k h1 h2
  have hlen : marker.length = 13 := rfl
  rw [hlen] at h2 ⊢
  interval_cases k <;> decide

/-- `# @@AUTOGEN@@\n` likewise has no proper border. -/
theorem markerNl_noBorder :
    ∀ k, 0 < k → k < markerNl.length → markerNl.take k ≠ markerNl.drop (markerNl.length - k) := by
  intro k h1 h2
  have hlen : markerNl.length = 14 := rfl
  rw [hlen] at h2 ⊢
  interval_cases k <;> decide

/-- Computation rule: when `A` contains no occurrence of a border-free
pattern, the first occurrence in `A ++ pat ++ t` is exactly the explicit
one (a straddling occurrence would force a proper border of `pat`). -/
theorem splitFirst_first_at (pat : Chars) (hne : pat ≠ [])
    (hnb : ∀ k, 0 < k → k < pat.length → pat.take k ≠ pat.drop (pat.length - k)) :
    ∀ (A t : Chars), (∀ x y, A ≠ x ++ pat ++ y) →
      splitFirst pat (A ++ pat ++ t) = some (A, t) := by
  intro A
  induction A with
  | nil =>
    intro t _
    simp only [List.nil_append]
    have hp : pat <+: (pat ++ t) := List.prefix_append _ _
    rcases hpt : pat ++ t with _ | ⟨c, cs⟩
    · exfalso
      exact hne (List.append_eq_nil.mp hpt).1
    · have hb : pat.isPrefixOf (c :: cs) = true := by
        rw [← hpt]
        exact List.isPrefixOf_iff_prefix.mpr hp
      rw [hpt] at hp
      simp only [splitFirst, hb, if_true, Option.some.injEq, Prod.mk.injEq]
      refine ⟨trivial, ?_⟩
      rw [← hpt, List.drop_left]
  | cons c A1 ih =>
    intro t hA
    have hA1 : ∀ x y, A1 ≠ x ++ pat ++ y := by
      intro x y hxy
      apply hA (c :: x) y
      rw [hxy]
      rfl
    have hnp : ¬ pat <+: ((c :: A1) ++ pat ++ t) := by
      intro hp
      rcases Nat.lt_or_ge (c :: A1).length pat.length with hlen | hlen
      · -- the straddling case: build a proper border of pat
        have hApre : (c :: A1) <+: ((c :: A1) ++ (pat ++ t)) := List.prefix_append _ _
        have hp2 : pat <+: ((c :: A1) ++ (pat ++ t)) := by
          rw [← List.append_assoc]
          exact hp
        have hsub : (c :: A1) <+: pat :=
          List.prefix_of_prefix_length_le hApre hp2 (le_of_lt hlen)
        rcases hsub with ⟨w, hw⟩
        have hw2 : pat = (c :: A1) ++ w := hw.symm
        rcases hp with ⟨u, hu⟩
        have hu2 : ((c :: A1) ++ w) ++ u = (c :: A1) ++ (((c :: A1) ++ w) ++ t) := by
          rw [← hw2, hu]
          simp [List.append_assoc]
        have hcancel : w ++ u = ((c :: A1) ++ w) ++ t := by
          rw [List.append_assoc] at hu2
          exact List.append_cancel_left hu2
        have hwpre : w <+: (pat ++ t) := by
          rw [hw2]
          exact ⟨u, hcancel.symm ▸ rfl⟩
        have hppre : pat <+: (pat ++ t) := List.prefix_append _ _
        have hlens : pat.length = (c :: A1).length + w.length := by
          rw [hw2, List.length_append]
        have hwlen : w.length ≤ pat.length := by omega
        have hwpat : w <+: pat := List.prefix_of_prefix_length_le hwpre hppre hwlen
        have hk1 : 0 < w.length := by omega
        have hk2 : w.length < pat.length := by
          have : 0 < (c :: A1).length := by simp
          omega
        have htake : pat.take w.length = w := (List.prefix_iff_eq_take.mp hwpat).symm
        have hdrop : pat.drop (pat.length - w.length) = w := by
          have hlen2 : pat.length - w.length = (c :: A1).length := by omega
          rw [hlen2, hw2, List.drop_left]
        exact hnb w.length hk1 hk2 (htake.trans hdrop.symm)
      · -- pat at least as short as the head: pat would occur inside A
        have hApre : (c :: A1) <+: ((c :: A1) ++ (pat ++ t)) := List.prefix_append _ _
        have hp2 : pat <+: ((c :: A1) ++ (pat ++ t)) := by
          rw [← List.append_assoc]
          exact hp
        have hsub : pat <+: (c :: A1) :=
          List.prefix_of_prefix_length_le hp2 hApre hlen
        rcases hsub with ⟨w, hw⟩
        exact hA [] w (by rw [← hw]; rfl)
    have hb : pat.isPrefixOf ((c :: A1) ++ pat ++ t) = false := by
      cases hbv : pat.isPrefixOf ((c :: A1) ++ pat ++ t)
      · rfl
      · exact absurd (List.isPrefixOf_iff_prefix.mp hbv) hnp
    show splitFirst pat (c :: (A1 ++ pat ++ t)) = some (c :: A1, t)
    have hb2 : pat.isPrefixOf (c :: (A1 ++ pat ++ t)) = false := hb
    simp only [splitFirst, hb2, Bool.false_eq_true, if_false]
    rw [ih t hA1]

/-! ## Helper lemmas: the pattern match and the substitution -/

/-- Decomposition of a match: the match region sits between a marker-free
head and starts at the first possible opening, closing at the earliest
possible `# @@AUTOGEN@@\n`. -/
theorem findPat_decomp (s a b : Chars) (h : findPat s = some (a, b)) :
    ∃ m, s = a ++ marker ++ m ++ markerNl ++ b ∧
      (∀ x y, a ≠ x ++ marker ++ y) ∧ (∀ x y, m ≠ x ++ markerNl ++ y) := by
  unfold findPat at h
  cases h1 : splitFirst marker s with
  | none => rw [h1] at h; exact Option.noConfusion h
  | some ar =>
    rcases ar with ⟨a2, r⟩
    simp only [h1] at h
    cases h2 : splitFirst markerNl r with
    | none =>
      simp only [h2] at h
      exact Option.noConfusion h
    | some mb =>
      rcases mb with ⟨m, b2⟩
      simp only [h2] at h
      simp only [Option.some.injEq, Prod.mk.injEq] at h
      rcases h with ⟨ha, hb⟩
      rw [ha] at h1
      rw [hb] at h2
      have hs := splitFirst_append marker s a r h1
      have hr := splitFirst_append markerNl r m b h2
      refine ⟨m, ?_, ?_, ?_⟩
      · rw [hs, hr]
        simp [List.append_assoc]
      · intro x y hxy
        have hmin := splitFirst_minimal marker s a r h1 x (y ++ marker ++ r) (by
          rw [hs, hxy]
          simp [List.append_assoc])
        rw [hxy] at hmin
        have hm13 : marker.length = 13 := rfl
        simp only [List.length_append, hm13] at hmin
        omega
      · intro x y hxy
        have hmin := splitFirst_minimal markerNl r m b h2 x (y ++ markerNl ++ b) (by
          rw [hr, hxy]
          simp [List.append_assoc])
        rw [hxy] at hmin
        have hm14 : markerNl.length = 14 := rfl
        simp only [List.length_append, hm14] at hmin
        omega

/-- A string with no opening-then-closing marker pair has no match. -/
theorem findPat_none (s : Chars) (h : ∀ x y z, s ≠ x ++ marker ++ y ++ markerNl ++ z) :
    findPat s = none := by
  cases hf : findPat s with
  | none => rfl
  | some ab =>
    rcases ab with ⟨a, b⟩
    rcases findPat_decomp s a b hf with ⟨m, hs, _, _⟩
    exact absurd hs (h a m b)

/-- Computation rule: an explicitly delimited first pair is the match. -/
theorem findPat_at (a m t : Chars)
    (ha : ∀ x y, a ≠ x ++ marker ++ y) (hm : ∀ x y, m ≠ x ++ markerNl ++ y) :
    findPat (a ++ marker ++ m ++ markerNl ++ t) = some (a, t) := by
  have hshape : a ++ marker ++ m ++ markerNl ++ t = a ++ marker ++ (m ++ markerNl ++ t) := by
    simp [List.append_assoc]
  rw [hshape]
  unfold findPat
  simp only [splitFirst_first_at marker marker_ne marker_noBorder a (m ++ markerNl ++ t) ha,
    splitFirst_first_at markerNl markerNl_ne markerNl_noBorder m t hm]

/-- A match consumes at least the two markers, so the tail is shorter. -/
theorem findPat_len (s a b : Chars) (h : findPat s = some (a, b)) :
    b.length < s.length := by
  rcases findPat_decomp s a b h with ⟨m, hs, _, _⟩
  rw [hs]
  have hm13 : marker.length = 13 := rfl
  have hm14 : markerNl.length = 14 := rfl
  simp only [List.length_append, hm13, hm14]
  omega

/-- Any fuel at least the string length computes the same substitution. -/
theorem reSubF_fuel (repl : Chars) :
    ∀ fuel s, s.length ≤ fuel → reSubF repl fuel s = reSubF repl s.length s := by
  intro fuel
  induction fuel using Nat.strong_induction_on with
  | _ fuel ih =>
    intro s hs
    cases fuel with
    | zero =>
      have h0 : s.length = 0 := Nat.le_zero.mp hs
      rw [h0]
    | succ f =>
      cases hf : findPat s with
      | none =>
        simp only [reSubF, hf]
        cases hl : s.length with
        | zero => rfl
        | succ k => simp only [reSubF, hf]
      | some ab =>
        rcases ab with ⟨a, b⟩
        have hblen := findPat_len s a b hf
        cases hl : s.length with
        | zero => omega
        | succ k =>
          rw [hl] at hblen hs
          simp only [reSubF, hf]
          have h1 : reSubF repl f b = reSubF repl b.length b :=
            ih f (Nat.lt_succ_self f) b (by omega)
          have h2 : reSubF repl k b = reSubF repl b.length b :=
            ih k (by omega) b (by omega)
          rw [h1, h2]

/-- The one-step unfolding of `reSub`: replace the leftmost lazy match and
continue on the remainder, exactly like `re.sub`. -/
theorem reSub_eq (repl s : Chars) :
    reSub repl s = (match findPat s with
      | none => s
      | some (a, b) => a ++ repl ++ reSub repl b) := by
  unfold reSub
  cases hf : findPat s with
  | none =>
    cases hl : s.length with
    | zero => rfl
    | succ k => simp only [reSubF, hf]
  | some ab =>
    rcases ab with ⟨a, b⟩
    have hblen := findPat_len s a b hf
    cases hl : s.length with
    | zero => omega
    | succ k =>
      simp only [reSubF, hf]
      rw [reSubF_fuel repl k b (by omega)]

/-- When the spliced blob contains no marker, the two-newline prefix of the
replacement's interior cannot produce a closing marker either. -/
theorem nnCode_free (code : Chars) (hc : ∀ x y, code ≠ x ++ marker ++ y) :
    ∀ x y, ('\n' :: '\n' :: code) ≠ x ++ markerNl ++ y := by
  intro x y hxy
  cases x with
  | nil =>
    rw [List.nil_append, show markerNl = '#' :: " @@AUTOGEN@@\n".data from rfl] at hxy
    simp only [List.cons_append] at hxy
    injection hxy with h1 _
    exact absurd h1 (by decide)
  | cons x0 x1 =>
    cases x1 with
    | nil =>
      rw [show markerNl = '#' :: " @@AUTOGEN@@\n".data from rfl] at hxy
      simp only [List.cons_append, List.nil_append] at hxy
      injection hxy with _ h2
      injection h2 with h3 _
      exact absurd h3 (by decide)
    | cons x2 x3 =>
      simp only [List.cons_append] at hxy
      injection hxy with _ h2
      injection h2 with _ h4
      apply hc x3 ('\n' :: y)
      rw [h4, show markerNl = marker ++ ['\n'] from rfl]
      simp [List.append_assoc]

/-- The interior of the replacement region, as the `findPat` middle. -/
theorem replData_shape (code t a : Chars) :
    a ++ replData code ++ t = a ++ marker ++ ('\n' :: '\n' :: code) ++ markerNl ++ t := by
  unfold replData
  rw [show "\n\n".data = ['\n', '\n'] from rfl]
  simp [List.append_assoc]

/-- Idempotence of the substitution: replacing the replacement reproduces
it, as long as the blob itself contains no marker. -/
theorem reSub_idem (code : Chars) (hc : ∀ x y, code ≠ x ++ marker ++ y) :
    ∀ s, reSub (replData code) (reSub (replData code) s) = reSub (replData code) s := by
  suffices H : ∀ n s, s.length = n →
      reSub (replData code) (reSub (replData code) s) = reSub (replData code) s by
    intro s
    exact H s.length s rfl
  intro n
  induction n using Nat.strong_induction_on with
  | _ n ih =>
    intro s hn
    cases hf : findPat s with
    | none =>
      have hs : reSub (replData code) s = s := by rw [reSub_eq, hf]
      rw [hs, reSub_eq, hf]
    | some ab =>
      rcases ab with ⟨a, b⟩
      have hs : reSub (replData code) s = a ++ replData code ++ reSub (replData code) b := by
        rw [reSub_eq, hf]
      rcases findPat_decomp s a b hf with ⟨m, _, hafree, _⟩
      have hblen : b.length < n := by
        have := findPat_len s a b hf
        omega
      have hidem := ih b.length hblen b rfl
      have hkey : findPat (a ++ replData code ++ reSub (replData code) b)
          = some (a, reSub (replData code) b) := by
        rw [replData_shape]
        exact findPat_at a ('\n' :: '\n' :: code) (reSub (replData code) b)
          hafree (nnCode_free code hc)
      rw [hs, reSub_eq (replData code) (a ++ replData code ++ reSub (replData code) b)]
      simp only [hkey]
      rw [hidem]

/-- A string shorter than the pattern contains no occurrence of it. -/
theorem short_no_sub (pat s : Chars) (h : s.length < pat.length) :
    ∀ x y, s ≠ x ++ pat ++ y := by
  intro x y hxy
  have hlen := congrArg List.length hxy
  simp only [List.length_append] at hlen
  omega

/-- A string shorter than both markers together contains no marker pair. -/
theorem short_no_pair (s : Chars) (h : s.length < marker.length + markerNl.length) :
    ∀ x y z, s ≠ x ++ marker ++ y ++ markerNl ++ z := by
  intro x y z hxy
  have hlen := congrArg List.length hxy
  simp only [List.length_append] at hlen
  omega

/-! ## C4: the splice replaces the first marker pair -/

/-- C4: splicing a target made of a marker-free head `A`, the opening
marker, a middle `mid` containing no closing marker, the closing marker
line and a pair-free tail `B` replaces everything from the first marker
through the closing marker (both inclusive) by opening marker, blank line,
blob, closing marker, leaving `A` and `B` untouched; and the claim's
concrete example evaluates exactly as stated. -/
theorem splice_first_pair (blob A mid B : Chars)
    (hA : ∀ x y, A ≠ x ++ marker ++ y)
    (hmid : ∀ x y, mid ≠ x ++ markerNl ++ y)
    (hB : ∀ x y z, B ≠ x ++ marker ++ y ++ markerNl ++ z) :
    splice blob (A ++ marker ++ mid ++ markerNl ++ B)
      = A ++ marker ++ "\n\n".data ++ blob ++ markerNl ++ B ∧
    splice "NEW\n".data "A\n# @@AUTOGEN@@\nOLD\n# @@AUTOGEN@@\nB\n".data
      = "A\n# @@AUTOGEN@@\n\nNEW\n# @@AUTOGEN@@\nB\n".data := by
  constructor
  · unfold splice
    rw [reSub_eq]
    simp only [findPat_at A mid B hA hmid]
    rw [reSub_eq]
    simp only [findPat_none B hB]
    unfold replData
    simp [List.append_assoc]
  · decide

/-- Witness for C4 on the claim's concrete target and blob, with the
hypotheses discharged by length bounds. -/
theorem splice_first_pair_witness :
    splice "NEW\n".data ("A\n".data ++ marker ++ "\nOLD\n".data ++ markerNl ++ "B\n".data)
      = "A\n".data ++ marker ++ "\n\n".data ++ "NEW\n".data ++ markerNl ++ "B\n".data :=
  (splice_first_pair "NEW\n".data "A\n".data "\nOLD\n".data "B\n".data
    (short_no_sub marker "A\n".data (by decide))
    (short_no_sub markerNl "\nOLD\n".data (by decide))
    (short_no_pair "B\n".data (by decide))).1

/-! ## C5: missing markers make the run a silent no-op -/

/-- C5: when the target contains no opening-marker/closing-marker pair,
the substitution matches nothing and the written content is exactly the
original content — no blob is inserted anywhere. -/
theorem splice_no_markers_noop (code s : Chars)
    (h : ∀ x y z, s ≠ x ++ marker ++ y ++ markerNl ++ z) :
    splice code s = s := by
  unfold splice
  rw [reSub_eq]
  simp only [findPat_none s h]

/-- Witness for C5 on a concrete marker-free target. -/
theorem splice_no_markers_noop_witness :
    splice "x".data "hello\nworld\n".data = "hello\nworld\n".data :=
  splice_no_markers_noop "x".data "hello\nworld\n".data
    (short_no_pair "hello\nworld\n".data (by decide))

/-! ## C7: generation is idempotent on the target -/

/-- C7 (amended): for a blob generated from a declaration list whose blob
contains no occurrence of the sentinel marker, splicing twice into any
target yields exactly the same text as splicing once (the second run's
match region is precisely what the first run inserted, and it is replaced
by itself).  The marker-free side condition is necessary: see
`splice_marker_name_counterexample`. -/
theorem splice_idempotent (hooks : List Hook) (code orig : Chars)
    (_hgen : genCode hooks = Except.ok code)
    (hfree : ∀ x y, code ≠ x ++ marker ++ y) :
    splice code (splice code orig) = splice code orig :=
  reSub_idem code hfree orig

set_option maxRecDepth 100000 in
/-- C7 as literally stated — idempotence for *every* declaration list — is
false: a declaration whose name embeds the sentinel marker line puts the
marker into the generated blob (the name is interpolated verbatim), and on
the second run the lazy pattern closes at the marker inside the first
run's insertion, so splicing twice differs from splicing once. -/
theorem splice_marker_name_counterexample :
    genCode [Hook.mk "x\n# @@AUTOGEN@@\nz" "" none none]
      = Except.ok ((genCode [Hook.mk "x\n# @@AUTOGEN@@\nz" "" none none]).toOption.getD []) ∧
    splice ((genCode [Hook.mk "x\n# @@AUTOGEN@@\nz" "" none none]).toOption.getD [])
        (splice ((genCode [Hook.mk "x\n# @@AUTOGEN@@\nz" "" none none]).toOption.getD [])
          "# @@AUTOGEN@@\n# @@AUTOGEN@@\n".data)
      ≠ splice ((genCode [Hook.mk "x\n# @@AUTOGEN@@\nz" "" none none]).toOption.getD [])
          "# @@AUTOGEN@@\n# @@AUTOGEN@@\n".data := by
  constructor
  · decide
  · decide

set_option maxRecDepth 10000 in
/-- Witness for C7: a one-declaration hook list, whose generated blob is
marker-free, against a concrete target containing one marker pair. -/
theorem splice_idempotent_witness :
    genCode [Hook.mk "x" "" none none]
      = Except.ok ((genCode [Hook.mk "x" "" none none]).toOption.getD []) ∧
    splice ((genCode [Hook.mk "x" "" none none]).toOption.getD [])
        (splice ((genCode [Hook.mk "x" "" none none]).toOption.getD [])
          ("top\n".data ++ marker ++ "\nold\n".data ++ markerNl ++ "bottom\n".data))
      = splice ((genCode [Hook.mk "x" "" none none]).toOption.getD [])
          ("top\n".data ++ marker ++ "\nold\n".data ++ markerNl ++ "bottom\n".data) :=
  ⟨by decide,
    splice_idempotent [Hook.mk "x" "" none none]
      ((genCode [Hook.mk "x" "" none none]).toOption.getD [])
      ("top\n".data ++ marker ++ "\nold\n".data ++ markerNl ++ "bottom\n".data)
      (by decide)
      (splitFirst_none marker _ (by decide))⟩

end GenHooks
